import Mathlib

/-!
Verification of the DDoS traceback simulation core (`simul_utils.py` and the
node-sampling reconstruction in `graph_utils.py`).

The Python engine is embedded shallowly:

* A networkx graph with the three simulation counters becomes `PGraph`:
  a node list, an (undirected) edge list, and counter functions.  An
  undirected networkx edge attribute `graph.edges[u, v]` is the same cell as
  `graph.edges[v, u]`; we model the cell addressed by the canonical key
  `ekey u v`.
* `random.choice` and `random.random` are modelled by explicit oracle inputs:
  each packet trial carries the index drawn by `random.choice` and the stream
  of uniform values drawn by `random.random` during the walk.
  `random.choice` on an empty sequence raises `IndexError`.
* `nx.shortest_path` is modelled by an oracle `sp : Nat → Nat → Option (List Nat)`;
  `none` models the `NetworkXNoPath` exception.  Theorems that depend on
  shortest-path facts (simple path from source to target along graph edges)
  take those facts as hypotheses on `sp`.
* Python exceptions become `Except SimError`; a raised exception propagates
  and aborts the run, exactly as the `Except` bind does.
* Probabilities and uniform draws are rationals.
-/

/-- A networkx graph together with the three counter attributes used by the
simulation: `times_marked` (per node), `times_used` (per node), and
`times_used` (per undirected edge, addressed by canonical key). -/
structure PGraph where
  nodes : List Nat
  edges : List (Nat × Nat)
  timesMarked : Nat → Nat
  timesUsedN : Nat → Nat
  timesUsedE : Nat × Nat → Nat

/-- Canonical key for an undirected edge: `graph.edges[u, v]` and
`graph.edges[v, u]` address the same attribute cell in networkx. -/
def ekey (u v : Nat) : Nat × Nat :=
  if u ≤ v then (u, v) else (v, u)

/-- Increment a counter function at one point. -/
def bump {α : Type} [DecidableEq α] (f : α → Nat) (m : α) : α → Nat :=
  fun n => if n = m then f n + 1 else f n

/-- `initialize_graph`: return a fresh copy of the graph with the attributes
`times_marked`, `times_used` (nodes) and `times_used` (edges) all set to 0.
The original graph is not modified (`G = graph.copy()`). -/
def initialize_graph (g : PGraph) : PGraph :=
  { nodes := g.nodes
    edges := g.edges
    timesMarked := fun _ => 0
    timesUsedN := fun _ => 0
    timesUsedE := fun _ => 0 }

/-- Errors the Python engine can raise during a run:
`indexError` is `random.choice` on an empty sequence, `noPath` is
`networkx.NetworkXNoPath` from `nx.shortest_path`. -/
inductive SimError where
  | indexError : SimError
  | noPath : SimError
deriving DecidableEq

/-- The `SimulationResult` dataclass. -/
structure SimulationResult where
  graph : PGraph
  packets_sent : Nat
  intermediate_routers : Nat
  nappend_overhead : Nat
  nsample_overhead : Nat
  esample_overhead : Nat

/-- Oracle input consumed by one packet trial: the value drawn by
`random.choice` (as an index) and the `random.random()` stream used during
the walk (one fresh draw per visited router, indexed by walk position). -/
structure TrialInput where
  choice : Nat
  draws : Nat → ℚ

/-- Clamp `p` to `[0, 1]`: `p = max(0, min(p, 1))`. -/
def clampP (p : ℚ) : ℚ := max 0 (min p 1)

/-- The attacker chosen by `random.choice(attacking_nodes)` for one trial. -/
def chosenAttacker (attackers : List Nat) (ti : TrialInput)
    (h : ¬ attackers.length = 0) : Nat :=
  attackers.get ⟨ti.choice % attackers.length, Nat.mod_lt _ (Nat.pos_of_ne_zero h)⟩

/-- State threaded through the walk over `enumerate(path[0:-1])`. -/
structure WalkState where
  g : PGraph
  nappend : Nat
  inter : Nat
  saved : Option Nat

/-- The body of `for idx, node in enumerate(path[0:-1], 0)`, iterated over the
consecutive pairs `(path[idx], path[idx+1])`: increment the node's
`times_used`, the edge's `times_used`, and `intermediate_routers`; draw
`x = random.random()` and overwrite `saved_router` when `x < p`; add 4 to
`nappend_overhead`. -/
def walkLoop (p : ℚ) (draws : Nat → ℚ) :
    List (Nat × Nat) → Nat → WalkState → WalkState
  | [], _, s => s
  | (a, b) :: rest, idx, s =>
      walkLoop p draws rest (idx + 1)
        { g := { s.g with
                  timesUsedN := bump s.g.timesUsedN a
                  timesUsedE := bump s.g.timesUsedE (ekey a b) }
          nappend := s.nappend + 4
          inter := s.inter + 1
          saved := if draws idx < p then some a else s.saved }

/-- State threaded through the packet loop of `simulate_transmissions`. -/
structure RunState where
  g : PGraph
  nappend : Nat
  inter : Nat

/-- One iteration of `for _ in range(num_packets)`: choose the attacker with
`random.choice` (raising on an empty list), compute the shortest path
(raising when none exists), increment the attacker's `times_used` once
explicitly, walk `path[0:-1]`, and finally increment `times_marked` of the
saved router, if any. -/
def runPacket (sp : Nat → Nat → Option (List Nat)) (attackers : List Nat)
    (target : Nat) (p : ℚ) (ti : TrialInput) (s : RunState) :
    Except SimError RunState :=
  if h : attackers.length = 0 then .error .indexError
  else
    let attacker := chosenAttacker attackers ti h
    match sp attacker target with
    | none => .error .noPath
    | some path =>
      let g1 := { s.g with timesUsedN := bump s.g.timesUsedN attacker }
      let ws := walkLoop p ti.draws (path.zip path.tail) 0
        { g := g1, nappend := s.nappend, inter := s.inter, saved := none }
      let g2 := match ws.saved with
        | some r => { ws.g with timesMarked := bump ws.g.timesMarked r }
        | none => ws.g
      .ok { g := g2, nappend := ws.nappend, inter := ws.inter }

/-- The packet loop: run the trials in order; an exception aborts the run. -/
def runPackets (sp : Nat → Nat → Option (List Nat)) (attackers : List Nat)
    (target : Nat) (p : ℚ) :
    List TrialInput → RunState → Except SimError RunState
  | [], s => .ok s
  | ti :: rest, s =>
      match runPacket sp attackers target p ti s with
      | .error e => .error e
      | .ok s2 => runPackets sp attackers target p rest s2

/-- `simulate_transmissions(graph, target_node, attacking_nodes, p, num_packets)`:
clamp `p`, initialize a fresh copy of the graph, run `num_packets` packet
trials (here: one per element of the oracle list `trials`), and return the
`SimulationResult` with the literal overhead formulas of the source. -/
def simulate_transmissions (graph : PGraph) (target : Nat)
    (attackers : List Nat) (p : ℚ) (sp : Nat → Nat → Option (List Nat))
    (trials : List TrialInput) : Except SimError SimulationResult :=
  let pc := clampP p
  let g := initialize_graph graph
  match runPackets sp attackers target pc trials { g := g, nappend := 0, inter := 0 } with
  | .error e => .error e
  | .ok s =>
      .ok { graph := s.g
            packets_sent := trials.length
            intermediate_routers := s.inter
            nappend_overhead := s.nappend
            nsample_overhead := trials.length * 4
            esample_overhead := trials.length * 9 }

/-- The node-sampling path reconstruction of `rebuild_node_sampling_paths`:
collect the nodes with `times_marked != 0` in node-enumeration order, sort
them ascending by `times_marked` with a stable sort (Python `sorted`), and
append the victim as the final chain element. -/
def rebuild_node_sampling_order (nodes : List Nat) (tm : Nat → Nat)
    (victim : Nat) : List Nat :=
  List.insertionSort (fun a b => tm a ≤ tm b)
    (nodes.filter (fun n => tm n != 0)) ++ [victim]

/-- Sum of the node `times_used` counters over the graph's node list (the
ground-truth total number of node-traversal events plus explicit attacker
increments). -/
def nodeUsedSum (g : PGraph) : Nat := (g.nodes.map g.timesUsedN).sum

/-- Sum of the edge `times_used` counters over the graph's edge list, each
undirected edge read through its canonical key. -/
def edgeUsedSum (g : PGraph) : Nat :=
  (g.edges.map (fun e => g.timesUsedE (ekey e.1 e.2))).sum

theorem walkLoop_nappend (p : ℚ) (draws : Nat → ℚ) :
    ∀ (pairs : List (Nat × Nat)) (idx : Nat) (s : WalkState),
      (walkLoop p draws pairs idx s).nappend = s.nappend + 4 * pairs.length
  | [], _, _ => rfl
  | (a, b) :: rest, idx, s => by
      simp only [walkLoop, walkLoop_nappend p draws rest]
      simp only [List.length_cons]
      ring

theorem walkLoop_inter (p : ℚ) (draws : Nat → ℚ) :
    ∀ (pairs : List (Nat × Nat)) (idx : Nat) (s : WalkState),
      (walkLoop p draws pairs idx s).inter = s.inter + pairs.length
  | [], _, _ => rfl
  | (a, b) :: rest, idx, s => by
      simp only [walkLoop, walkLoop_inter p draws rest]
      simp only [List.length_cons]
      ring

theorem walkLoop_marked (p : ℚ) (draws : Nat → ℚ) :
    ∀ (pairs : List (Nat × Nat)) (idx : Nat) (s : WalkState),
      (walkLoop p draws pairs idx s).g.timesMarked = s.g.timesMarked
  | [], _, _ => rfl
  | (a, b) :: rest, idx, s => by
      simp only [walkLoop, walkLoop_marked p draws rest]

theorem walkLoop_nodes (p : ℚ) (draws : Nat → ℚ) :
    ∀ (pairs : List (Nat × Nat)) (idx : Nat) (s : WalkState),
      (walkLoop p draws pairs idx s).g.nodes = s.g.nodes
  | [], _, _ => rfl
  | (a, b) :: rest, idx, s => by
      simp only [walkLoop, walkLoop_nodes p draws rest]

theorem walkLoop_edges (p : ℚ) (draws : Nat → ℚ) :
    ∀ (pairs : List (Nat × Nat)) (idx : Nat) (s : WalkState),
      (walkLoop p draws pairs idx s).g.edges = s.g.edges
  | [], _, _ => rfl
  | (a, b) :: rest, idx, s => by
      simp only [walkLoop, walkLoop_edges p draws rest]

theorem walkLoop_usedN (p : ℚ) (draws : Nat → ℚ) :
    ∀ (pairs : List (Nat × Nat)) (idx : Nat) (s : WalkState) (n : Nat),
      (walkLoop p draws pairs idx s).g.timesUsedN n =
        s.g.timesUsedN n + (pairs.map Prod.fst).count n
  | [], _, _, _ => by simp [walkLoop]
  | (a, b) :: rest, idx, s, n => by
      simp only [walkLoop, walkLoop_usedN p draws rest]
      simp only [List.map_cons, List.count_cons, bump]
      by_cases hna : n = a
      · subst hna
        simp only [if_pos rfl, beq_self_eq_true, if_true]
        omega
      · simp [hna, Ne.symm hna]

theorem walkLoop_usedE (p : ℚ) (draws : Nat → ℚ) :
    ∀ (pairs : List (Nat × Nat)) (idx : Nat) (s : WalkState) (k : Nat × Nat),
      (walkLoop p draws pairs idx s).g.timesUsedE k =
        s.g.timesUsedE k + (pairs.map (fun q => ekey q.1 q.2)).count k
  | [], _, _, _ => by simp [walkLoop]
  | (a, b) :: rest, idx, s, k => by
      simp only [walkLoop, walkLoop_usedE p draws rest]
      simp only [List.map_cons, List.count_cons, bump]
      by_cases hk : k = ekey a b
      · subst hk
        simp only [if_pos rfl, beq_self_eq_true, if_true]
        omega
      · simp [hk, Ne.symm hk]

theorem walkLoop_saved_none (p : ℚ) (draws : Nat → ℚ) :
    ∀ (pairs : List (Nat × Nat)) (idx : Nat) (s : WalkState),
      (∀ i, i < pairs.length → ¬ draws (idx + i) < p) →
      (walkLoop p draws pairs idx s).saved = s.saved
  | [], _, _, _ => rfl
  | (a, b) :: rest, idx, s, hno => by
      have h0 : ¬ draws idx < p := by
        have := hno 0 (by simp)
        simpa using this
      simp only [walkLoop, if_neg h0]
      exact walkLoop_saved_none p draws rest (idx + 1) _ (fun i hi => by
        have := hno (i + 1) (by simpa using Nat.succ_lt_succ hi)
        rwa [show idx + (i + 1) = idx + 1 + i by omega] at this)

theorem walkLoop_saved_last (p : ℚ) (draws : Nat → ℚ) :
    ∀ (pairs : List (Nat × Nat)) (idx : Nat) (s : WalkState) (j : Nat)
      (hj : j < pairs.length),
      draws (idx + j) < p →
      (∀ i, j < i → i < pairs.length → ¬ draws (idx + i) < p) →
      (walkLoop p draws pairs idx s).saved = some (pairs.get ⟨j, hj⟩).1
  | [], _, _, j, hj => by simp at hj
  | (a, b) :: rest, idx, s, 0, hj => by
      intro hhit hafter
      simp only [walkLoop]
      rw [if_pos (by simpa using hhit)]
      rw [walkLoop_saved_none p draws rest (idx + 1) _ (fun i hi => by
        have := hafter (i + 1) (Nat.succ_pos i) (by simpa using Nat.succ_lt_succ hi)
        rwa [show idx + (i + 1) = idx + 1 + i by omega] at this)]
      rfl
  | (a, b) :: rest, idx, s, j + 1, hj => by
      intro hhit hafter
      simp only [walkLoop]
      exact walkLoop_saved_last p draws rest (idx + 1) _ j
        (Nat.lt_of_succ_lt_succ hj)
        (by rwa [show idx + 1 + j = idx + (j + 1) by omega])
        (fun i hi hilen => by
          have := hafter (i + 1) (Nat.succ_lt_succ hi) (Nat.succ_lt_succ hilen)
          rwa [show idx + (i + 1) = idx + 1 + i by omega] at this)

theorem zip_tail_map_fst : ∀ (l : List Nat), (l.zip l.tail).map Prod.fst = l.dropLast
  | [] => rfl
  | [_] => rfl
  | a :: b :: t => by
      have ih := zip_tail_map_fst (b :: t)
      simp only [List.tail_cons, List.zip_cons_cons, List.map_cons] at *
      rw [ih]
      rfl

theorem zip_tail_length (l : List Nat) : (l.zip l.tail).length = l.length - 1 := by
  have h := congrArg List.length (zip_tail_map_fst l)
  rw [List.length_map] at h
  rw [h, List.length_dropLast]

theorem zip_tail_get_fst (l : List Nat) (j : Nat) (hj : j < (l.zip l.tail).length)
    (hj2 : j < l.dropLast.length) :
    ((l.zip l.tail).get ⟨j, hj⟩).1 = l.dropLast.get ⟨j, hj2⟩ := by
  have hmap : ((l.zip l.tail).map Prod.fst).get
      ⟨j, by rw [List.length_map]; exact hj⟩ = l.dropLast.get ⟨j, hj2⟩ := by
    congr 1
    · exact zip_tail_map_fst l
    · rw [Fin.heq_ext_iff]
      rw [congrArg List.length (zip_tail_map_fst l)]
  rw [List.get_map] at hmap
  exact hmap

theorem runPacket_of_path (sp : Nat → Nat → Option (List Nat))
    (attackers : List Nat) (target : Nat) (p : ℚ) (ti : TrialInput)
    (s : RunState) (h : ¬ attackers.length = 0) (path : List Nat)
    (hsp : sp (chosenAttacker attackers ti h) target = some path) :
    runPacket sp attackers target p ti s =
      (let ws := walkLoop p ti.draws (path.zip path.tail) 0
        { g := { s.g with
                  timesUsedN := bump s.g.timesUsedN (chosenAttacker attackers ti h) }
          nappend := s.nappend, inter := s.inter, saved := none }
       Except.ok
        { g := match ws.saved with
            | some r => { ws.g with timesMarked := bump ws.g.timesMarked r }
            | none => ws.g
          nappend := ws.nappend
          inter := ws.inter }) := by
  unfold runPacket
  rw [dif_neg h]
  simp only [hsp]


/-- C1: For every packet trial, `times_marked` is incremented by exactly one
for at most one node — the last node on that packet's walk (attacker up to but
excluding the victim) whose fresh uniform draw was below the clamped `p`,
later candidates overwriting earlier ones — no node is marked if no draw was
below `p`, and with `p = 1` (more generally `1 ≤ p` before clamping) exactly
one node per packet is marked, namely the node closest to the victim on the
path. -/
theorem mark_sample_and_overwrite (sp : Nat → Nat → Option (List Nat))
    (attackers : List Nat) (target : Nat) (p : ℚ) (ti : TrialInput)
    (s s2 : RunState) (h : ¬ attackers.length = 0) (path : List Nat)
    (hsp : sp (chosenAttacker attackers ti h) target = some path)
    (hok : runPacket sp attackers target (clampP p) ti s = .ok s2) :
    ((∀ i, i < path.dropLast.length → ¬ ti.draws i < clampP p) →
        s2.g.timesMarked = s.g.timesMarked) ∧
    (∀ j (hj : j < path.dropLast.length), ti.draws j < clampP p →
        (∀ i, j < i → i < path.dropLast.length → ¬ ti.draws i < clampP p) →
        s2.g.timesMarked = bump s.g.timesMarked (path.dropLast.get ⟨j, hj⟩)) ∧
    (∀ hw : path.length - 2 < path.dropLast.length, (1 : ℚ) ≤ p →
        (∀ i, 0 ≤ ti.draws i ∧ ti.draws i < 1) →
        s2.g.timesMarked =
          bump s.g.timesMarked (path.dropLast.get ⟨path.length - 2, hw⟩)) := by
  rw [runPacket_of_path sp attackers target (clampP p) ti s h path hsp] at hok
  simp only [] at hok
  have hs2 := (Except.ok.inj hok).symm
  subst hs2
  have hlen : (path.zip path.tail).length = path.dropLast.length := by
    rw [zip_tail_length, List.length_dropLast]
  set W := walkLoop (clampP p) ti.draws (path.zip path.tail) 0
      { g := { s.g with
                timesUsedN := bump s.g.timesUsedN (chosenAttacker attackers ti h) }
        nappend := s.nappend, inter := s.inter, saved := none } with hW
  have hWm : W.g.timesMarked = s.g.timesMarked := by
    rw [hW, walkLoop_marked]
  have hb : ∀ j (hj : j < path.dropLast.length), ti.draws j < clampP p →
      (∀ i, j < i → i < path.dropLast.length → ¬ ti.draws i < clampP p) →
      (match W.saved with
        | some r => { W.g with timesMarked := bump W.g.timesMarked r }
        | none => W.g).timesMarked =
        bump s.g.timesMarked (path.dropLast.get ⟨j, hj⟩) := by
    intro j hj hhit hafter
    have hj2 : j < (path.zip path.tail).length := by omega
    have hsome : W.saved = some ((path.zip path.tail).get ⟨j, hj2⟩).1 := by
      rw [hW]
      exact walkLoop_saved_last (clampP p) ti.draws (path.zip path.tail) 0 _ j hj2
        (by rwa [Nat.zero_add])
        (fun i hi hilen => by
          have := hafter i hi (by omega)
          rwa [Nat.zero_add])
    rw [hsome]
    simp only []
    rw [hWm, zip_tail_get_fst path j hj2 hj]
  refine ⟨?_, hb, ?_⟩
  · intro hno
    have hnone : W.saved = none := by
      rw [hW]
      exact walkLoop_saved_none (clampP p) ti.draws (path.zip path.tail) 0 _
        (fun i hi => by
          have := hno i (by omega)
          rwa [Nat.zero_add])
    rw [hnone]
    simp only []
    exact hWm
  · intro hw hp hdr
    have hclamp : clampP p = 1 := by
      unfold clampP
      rw [min_eq_right hp, max_eq_right]
      norm_num
    have hlen2 : 2 ≤ path.length := by
      rw [List.length_dropLast] at hw
      omega
    have hj : path.length - 2 < path.dropLast.length := hw
    exact hb (path.length - 2) hj
      (by rw [hclamp]; exact (hdr (path.length - 2)).2)
      (fun i hgt hlt => by
        rw [List.length_dropLast] at hlt
        omega)

theorem mark_sample_and_overwrite_witness :
    ((runPacket (fun a t => if a = 0 ∧ t = 3 then some [0, 1, 2, 3] else none)
        [0] 3 (clampP 1) ⟨0, fun _ => (1 : ℚ)/2⟩
        ⟨initialize_graph
            ⟨[0, 1, 2, 3], [(0, 1), (1, 2), (2, 3)],
              fun _ => 0, fun _ => 0, fun _ => 0⟩, 0, 0⟩).map
      (fun s2 => s2.g.timesMarked 2)) = Except.ok 1 := by
  obtain ⟨s2, hok⟩ :
      ∃ s2, runPacket (fun a t => if a = 0 ∧ t = 3 then some [0, 1, 2, 3] else none)
        [0] 3 (clampP 1) ⟨0, fun _ => (1 : ℚ)/2⟩
        ⟨initialize_graph
            ⟨[0, 1, 2, 3], [(0, 1), (1, 2), (2, 3)],
              fun _ => 0, fun _ => 0, fun _ => 0⟩, 0, 0⟩ = .ok s2 := ⟨_, rfl⟩
  have hm := (mark_sample_and_overwrite
      (fun a t => if a = 0 ∧ t = 3 then some [0, 1, 2, 3] else none)
      [0] 3 1 ⟨0, fun _ => (1 : ℚ)/2⟩ _ s2 (by decide) [0, 1, 2, 3] rfl hok).2.2
      (by decide) (le_refl 1) (fun i => ⟨by norm_num, by norm_num⟩)
  rw [hok]
  simp only [Except.map]
  rw [hm]
  rfl

theorem runPacket_ok_shape (sp : Nat → Nat → Option (List Nat))
    (attackers : List Nat) (target : Nat) (p : ℚ) (ti : TrialInput)
    (s s2 : RunState)
    (hok : runPacket sp attackers target p ti s = .ok s2) :
    ∃ d, s2.inter = s.inter + d ∧ s2.nappend = s.nappend + 4 * d ∧
      s2.g.nodes = s.g.nodes ∧ s2.g.edges = s.g.edges := by
  unfold runPacket at hok
  split at hok
  · cases hok
  · rename_i h
    dsimp only [] at hok
    split at hok
    · cases hok
    · rename_i path hsp
      have hs2 := (Except.ok.inj hok).symm
      subst hs2
      refine ⟨(path.zip path.tail).length, ?_⟩
      set W := walkLoop p ti.draws (path.zip path.tail) 0
        { g := { s.g with
                  timesUsedN := bump s.g.timesUsedN (chosenAttacker attackers ti h) }
          nappend := s.nappend, inter := s.inter, saved := none } with hWdef
      have h1 : W.inter = s.inter + (path.zip path.tail).length := by
        rw [hWdef, walkLoop_inter]
      have h2 : W.nappend = s.nappend + 4 * (path.zip path.tail).length := by
        rw [hWdef, walkLoop_nappend]
      have h3 : W.g.nodes = s.g.nodes := by rw [hWdef, walkLoop_nodes]
      have h4 : W.g.edges = s.g.edges := by rw [hWdef, walkLoop_edges]
      rcases hsv : W.saved with _ | r <;> simp only [hsv] <;>
        exact ⟨h1, h2, h3, h4⟩

theorem bump_apply {α : Type} [DecidableEq α] (f : α → Nat) (m n : α) :
    bump f m n = f n + (if n = m then 1 else 0) := by
  unfold bump
  split <;> rfl

theorem runPackets_ok_shape (sp : Nat → Nat → Option (List Nat))
    (attackers : List Nat) (target : Nat) (p : ℚ) :
    ∀ (trials : List TrialInput) (s s2 : RunState),
      runPackets sp attackers target p trials s = .ok s2 →
      ∃ D, s2.inter = s.inter + D ∧ s2.nappend = s.nappend + 4 * D ∧
        s2.g.nodes = s.g.nodes ∧ s2.g.edges = s.g.edges
  | [], s, s2, hok => by
      have hs2 := (Except.ok.inj hok).symm
      subst hs2
      exact ⟨0, by omega, by omega, rfl, rfl⟩
  | ti :: rest, s, s2, hok => by
      unfold runPackets at hok
      split at hok
      · cases hok
      · rename_i s1 hs1
        obtain ⟨d, hd1, hd2, hd3, hd4⟩ :=
          runPacket_ok_shape sp attackers target p ti s s1 hs1
        obtain ⟨D, hD1, hD2, hD3, hD4⟩ :=
          runPackets_ok_shape sp attackers target p rest s1 s2 hok
        exact ⟨d + D, by omega, by omega, by rw [hD3, hd3], by rw [hD4, hd4]⟩

/-- C2: Every successful run satisfies `nsample_overhead == 4 * packets_sent`,
`esample_overhead == 9 * packets_sent`, `nappend_overhead == 4 *
intermediate_routers`, and `packets_sent == num_packets`; the node- and
edge-sampling totals are the fixed per-packet constants, independent of the
topology and paths (`sp` does not occur in them). -/
theorem overhead_formulas (graph : PGraph) (target : Nat)
    (attackers : List Nat) (p : ℚ) (sp : Nat → Nat → Option (List Nat))
    (trials : List TrialInput) (r : SimulationResult)
    (hok : simulate_transmissions graph target attackers p sp trials = .ok r) :
    r.nsample_overhead = 4 * r.packets_sent ∧
    r.esample_overhead = 9 * r.packets_sent ∧
    r.nappend_overhead = 4 * r.intermediate_routers ∧
    r.packets_sent = trials.length := by
  unfold simulate_transmissions at hok
  dsimp only [] at hok
  split at hok
  · cases hok
  · rename_i s hs
    have hr := (Except.ok.inj hok).symm
    subst hr
    obtain ⟨D, hD1, hD2, _, _⟩ :=
      runPackets_ok_shape sp attackers target (clampP p) trials _ s hs
    have hI : s.inter = 0 + D := hD1
    have hN : s.nappend = 0 + 4 * D := hD2
    exact ⟨Nat.mul_comm trials.length 4, Nat.mul_comm trials.length 9,
      by show s.nappend = 4 * s.inter; omega, rfl⟩

theorem overhead_formulas_witness :
    ((simulate_transmissions
        ⟨[0, 1, 2, 3], [(0, 1), (1, 2), (2, 3)], fun _ => 0, fun _ => 0, fun _ => 0⟩
        3 [0] 1 (fun a t => if a = 0 ∧ t = 3 then some [0, 1, 2, 3] else none)
        [⟨0, fun _ => (1 : ℚ)/2⟩]).map
      (fun r => (r.nsample_overhead, r.esample_overhead, r.nappend_overhead,
                 r.packets_sent, r.intermediate_routers))) =
      Except.ok (4, 9, 12, 1, 3) := by
  obtain ⟨r, hr⟩ :
      ∃ r, simulate_transmissions
        ⟨[0, 1, 2, 3], [(0, 1), (1, 2), (2, 3)], fun _ => 0, fun _ => 0, fun _ => 0⟩
        3 [0] 1 (fun a t => if a = 0 ∧ t = 3 then some [0, 1, 2, 3] else none)
        [⟨0, fun _ => (1 : ℚ)/2⟩] = .ok r := ⟨_, rfl⟩
  have h := overhead_formulas _ 3 [0] 1 _ _ r hr
  have hCr := Except.ok.inj hr
  have hps : r.packets_sent = 1 := h.2.2.2
  have hir : r.intermediate_routers = 3 := by
    rw [← hCr]
    rfl
  rw [hr]
  simp only [Except.map]
  rw [h.1, h.2.1, h.2.2.1, hps, hir]

theorem runPacket_usedN (sp : Nat → Nat → Option (List Nat))
    (attackers : List Nat) (target : Nat) (p : ℚ) (ti : TrialInput)
    (s s2 : RunState) (h : ¬ attackers.length = 0) (path : List Nat)
    (hsp : sp (chosenAttacker attackers ti h) target = some path)
    (hok : runPacket sp attackers target p ti s = .ok s2) (n : Nat) :
    s2.g.timesUsedN n = s.g.timesUsedN n + path.dropLast.count n +
      (if n = chosenAttacker attackers ti h then 1 else 0) := by
  rw [runPacket_of_path sp attackers target p ti s h path hsp] at hok
  simp only [] at hok
  have hs2 := (Except.ok.inj hok).symm
  subst hs2
  set W := walkLoop p ti.draws (path.zip path.tail) 0
      { g := { s.g with
                timesUsedN := bump s.g.timesUsedN (chosenAttacker attackers ti h) }
        nappend := s.nappend, inter := s.inter, saved := none } with hW
  have hused : W.g.timesUsedN n =
      s.g.timesUsedN n + path.dropLast.count n +
        (if n = chosenAttacker attackers ti h then 1 else 0) := by
    rw [hW, walkLoop_usedN]
    simp only []
    rw [bump_apply, zip_tail_map_fst]
    omega
  rcases hsv : W.saved with _ | rr <;> simp only [hsv] <;> exact hused

theorem count_dropLast_head (path : List Nat) (a t : Nat)
    (hhd : path.head? = some a) (hlast : path.getLast? = some t)
    (hnd : path.Nodup) (hne : a ≠ t) :
    path.dropLast.count a = 1 := by
  match path, hhd with
  | x :: rest, hhd =>
    have hxa : x = a := by
      simp only [List.head?_cons, Option.some.injEq] at hhd
      exact hhd
    subst hxa
    match rest, hlast with
    | [], hlast =>
      exfalso
      simp only [List.getLast?_singleton, Option.some.injEq] at hlast
      exact hne hlast
    | y :: rest2, hlast =>
      have hdl : (x :: y :: rest2).dropLast = x :: (y :: rest2).dropLast := rfl
      rw [hdl]
      have hx : x ∉ (y :: rest2).dropLast := by
        intro hmem
        have hmem2 : x ∈ y :: rest2 := (List.dropLast_sublist _).mem hmem
        exact (List.nodup_cons.mp hnd).1 hmem2
      rw [List.count_cons]
      rw [List.count_eq_zero.mpr hx]
      simp

/-- C3: With the victim not among the attackers, each packet trial contributes
exactly 2 to the chosen attacker's `times_used`: one explicit increment plus
exactly one increment from the walk over the path nodes excluding the
victim. -/
theorem attacker_double_increment (sp : Nat → Nat → Option (List Nat))
    (attackers : List Nat) (target : Nat) (p : ℚ) (ti : TrialInput)
    (s s2 : RunState) (h : ¬ attackers.length = 0) (path : List Nat)
    (hsp : sp (chosenAttacker attackers ti h) target = some path)
    (hhd : path.head? = some (chosenAttacker attackers ti h))
    (hlast : path.getLast? = some target)
    (hnd : path.Nodup)
    (hvic : target ∉ attackers)
    (hok : runPacket sp attackers target p ti s = .ok s2) :
    s2.g.timesUsedN (chosenAttacker attackers ti h) =
      s.g.timesUsedN (chosenAttacker attackers ti h) + 2 := by
  have hmem : chosenAttacker attackers ti h ∈ attackers := List.get_mem _ _ _
  have hne : chosenAttacker attackers ti h ≠ target := by
    intro he
    rw [he] at hmem
    exact hvic hmem
  have hcount := count_dropLast_head path (chosenAttacker attackers ti h) target
    hhd hlast hnd hne
  have := runPacket_usedN sp attackers target p ti s s2 h path hsp hok
    (chosenAttacker attackers ti h)
  rw [hcount, if_pos rfl] at this
  omega

theorem attacker_double_increment_witness :
    ((runPacket (fun a t => if a = 0 ∧ t = 3 then some [0, 1, 2, 3] else none)
        [0] 3 (1 : ℚ) ⟨0, fun _ => (1 : ℚ)/2⟩
        ⟨initialize_graph
            ⟨[0, 1, 2, 3], [(0, 1), (1, 2), (2, 3)],
              fun _ => 0, fun _ => 0, fun _ => 0⟩, 0, 0⟩).map
      (fun s2 => s2.g.timesUsedN 0)) = Except.ok 2 := by
  obtain ⟨s2, hok⟩ :
      ∃ s2, runPacket (fun a t => if a = 0 ∧ t = 3 then some [0, 1, 2, 3] else none)
        [0] 3 (1 : ℚ) ⟨0, fun _ => (1 : ℚ)/2⟩
        ⟨initialize_graph
            ⟨[0, 1, 2, 3], [(0, 1), (1, 2), (2, 3)],
              fun _ => 0, fun _ => 0, fun _ => 0⟩, 0, 0⟩ = .ok s2 := ⟨_, rfl⟩
  have hd := attacker_double_increment
    (fun a t => if a = 0 ∧ t = 3 then some [0, 1, 2, 3] else none)
    [0] 3 1 ⟨0, fun _ => (1 : ℚ)/2⟩ _ s2 (by decide) [0, 1, 2, 3]
    rfl rfl rfl (by decide) (by decide) hok
  have hd2 : s2.g.timesUsedN 0 = 2 := hd
  rw [hok]
  simp only [Except.map]
  rw [hd2]

theorem runPacket_noPath (sp : Nat → Nat → Option (List Nat))
    (attackers : List Nat) (target : Nat) (p : ℚ) (ti : TrialInput)
    (s : RunState) (h : ¬ attackers.length = 0)
    (hsp : sp (chosenAttacker attackers ti h) target = none) :
    runPacket sp attackers target p ti s = .error .noPath := by
  unfold runPacket
  rw [dif_neg h]
  simp only [hsp]

theorem runPacket_indexError (sp : Nat → Nat → Option (List Nat))
    (target : Nat) (p : ℚ) (ti : TrialInput) (s : RunState) :
    runPacket sp [] target p ti s = .error .indexError := rfl

theorem getLast_not_mem_dropLast (l : List Nat) (hnd : l.Nodup) (x : Nat)
    (hl : l.getLast? = some x) : x ∉ l.dropLast := by
  have hne : l ≠ [] := by
    intro he
    subst he
    simp at hl
  have hx : l.getLast hne = x := by
    rw [List.getLast?_eq_getLast l hne] at hl
    exact Option.some.inj hl
  have hsplit := List.dropLast_append_getLast hne
  rw [← hsplit] at hnd
  rw [List.nodup_append] at hnd
  intro hmem
  exact hnd.2.2 hmem (by rw [hx]; exact List.mem_singleton_self x)

theorem runPacket_target_unused (sp : Nat → Nat → Option (List Nat))
    (attackers : List Nat) (target : Nat) (p : ℚ) (ti : TrialInput)
    (s s2 : RunState)
    (hvic : target ∉ attackers)
    (hspec : ∀ a path, a ∈ attackers → sp a target = some path →
       path.Nodup ∧ path.getLast? = some target)
    (hok : runPacket sp attackers target p ti s = .ok s2) :
    s2.g.timesUsedN target = s.g.timesUsedN target := by
  by_cases hA : attackers.length = 0
  · rw [runPacket, dif_pos hA] at hok
    cases hok
  · rcases hsp : sp (chosenAttacker attackers ti hA) target with _ | path
    · rw [runPacket_noPath sp attackers target p ti s hA hsp] at hok
      cases hok
    · have hval := runPacket_usedN sp attackers target p ti s s2 hA path hsp hok target
      have hmem : chosenAttacker attackers ti hA ∈ attackers := List.get_mem _ _ _
      have hne : ¬ target = chosenAttacker attackers ti hA := by
        intro he
        rw [← he] at hmem
        exact hvic hmem
      have hprops := hspec (chosenAttacker attackers ti hA) path hmem hsp
      have hnm : target ∉ path.dropLast :=
        getLast_not_mem_dropLast path hprops.1 target hprops.2
      rw [if_neg hne, List.count_eq_zero.mpr hnm] at hval
      omega

theorem runPackets_target_unused (sp : Nat → Nat → Option (List Nat))
    (attackers : List Nat) (target : Nat) (p : ℚ)
    (hvic : target ∉ attackers)
    (hspec : ∀ a path, a ∈ attackers → sp a target = some path →
       path.Nodup ∧ path.getLast? = some target) :
    ∀ (trials : List TrialInput) (s s2 : RunState),
      runPackets sp attackers target p trials s = .ok s2 →
      s2.g.timesUsedN target = s.g.timesUsedN target
  | [], s, s2, hok => by
      have hs2 := (Except.ok.inj hok).symm
      subst hs2
      rfl
  | ti :: rest, s, s2, hok => by
      unfold runPackets at hok
      split at hok
      · cases hok
      · rename_i s1 hs1
        rw [runPackets_target_unused sp attackers target p hvic hspec rest s1 s2 hok]
        exact runPacket_target_unused sp attackers target p ti s s1 hvic hspec hs1

/-- C4: With the victim (the target node) not among the attacking nodes, the
victim's `times_used` attribute in the returned graph is 0: every per-packet
walk covers all path nodes except the victim. -/
theorem victim_times_used_zero (graph : PGraph) (target : Nat)
    (attackers : List Nat) (p : ℚ) (sp : Nat → Nat → Option (List Nat))
    (trials : List TrialInput) (r : SimulationResult)
    (hvic : target ∉ attackers)
    (hspec : ∀ a path, a ∈ attackers → sp a target = some path →
       path.Nodup ∧ path.getLast? = some target)
    (hok : simulate_transmissions graph target attackers p sp trials = .ok r) :
    r.graph.timesUsedN target = 0 := by
  unfold simulate_transmissions at hok
  dsimp only [] at hok
  split at hok
  · cases hok
  · rename_i s hs
    have hr := (Except.ok.inj hok).symm
    subst hr
    exact runPackets_target_unused sp attackers target (clampP p) hvic hspec
      trials _ s hs

theorem victim_times_used_zero_witness :
    ((simulate_transmissions
        ⟨[0, 1, 2, 3], [(0, 1), (1, 2), (2, 3)], fun _ => 0, fun _ => 0, fun _ => 0⟩
        3 [0] 1 (fun a t => if a = 0 ∧ t = 3 then some [0, 1, 2, 3] else none)
        [⟨0, fun _ => (1 : ℚ)/2⟩]).map
      (fun r => r.graph.timesUsedN 3)) = Except.ok 0 := by
  obtain ⟨r, hr⟩ :
      ∃ r, simulate_transmissions
        ⟨[0, 1, 2, 3], [(0, 1), (1, 2), (2, 3)], fun _ => 0, fun _ => 0, fun _ => 0⟩
        3 [0] 1 (fun a t => if a = 0 ∧ t = 3 then some [0, 1, 2, 3] else none)
        [⟨0, fun _ => (1 : ℚ)/2⟩] = .ok r := ⟨_, rfl⟩
  have hz := victim_times_used_zero _ 3 [0] 1 _ _ r (by decide)
    (by
      intro a path ha hsp
      rw [List.mem_singleton] at ha
      subst ha
      rw [if_pos ⟨rfl, rfl⟩] at hsp
      have hp := Option.some.inj hsp
      subst hp
      exact ⟨by decide, by decide⟩)
    hr
  rw [hr]
  simp only [Except.map]
  rw [hz]

/-- C5 counterexample: with an empty attacker list and `num_packets = 0`, the
engine raises no error at all — it returns a successful `SimulationResult`
with all-zero statistics, so no fatal parameter error is reported before the
trials. -/
theorem empty_attackers_zero_packets_ok :
    simulate_transmissions
      ⟨[0, 1], [(0, 1)], fun _ => 0, fun _ => 0, fun _ => 0⟩
      0 [] (1 : ℚ) (fun _ _ => none) [] =
      .ok { graph := initialize_graph ⟨[0, 1], [(0, 1)], fun _ => 0, fun _ => 0, fun _ => 0⟩
            packets_sent := 0
            intermediate_routers := 0
            nappend_overhead := 0
            nsample_overhead := 0
            esample_overhead := 0 } := rfl

/-- C5 amended: `simulate_transmissions` performs no up-front validation of
the attacker list.  With an empty attacker list it fails with the
`IndexError` of `random.choice` at the first trial whenever `num_packets > 0`
(before any counters change), and with `num_packets = 0` it returns
successfully with all-zero statistics. -/
theorem empty_attackers_amended (graph : PGraph) (target : Nat) (p : ℚ)
    (sp : Nat → Nat → Option (List Nat)) (ti : TrialInput)
    (tis : List TrialInput) :
    simulate_transmissions graph target [] p sp (ti :: tis) =
      .error .indexError ∧
    simulate_transmissions graph target [] p sp [] =
      .ok { graph := initialize_graph graph
            packets_sent := 0
            intermediate_routers := 0
            nappend_overhead := 0
            nsample_overhead := 0
            esample_overhead := 0 } := by
  constructor
  · unfold simulate_transmissions
    dsimp only []
    rw [show runPackets sp [] target (clampP p) (ti :: tis)
          { g := initialize_graph graph, nappend := 0, inter := 0 } =
        .error .indexError from rfl]
  · rfl

theorem empty_attackers_amended_witness :
    simulate_transmissions
        ⟨[0, 1], [(0, 1)], fun _ => 0, fun _ => 0, fun _ => 0⟩
        0 [] (1 : ℚ) (fun _ _ => none) [⟨0, fun _ => 0⟩] = .error .indexError ∧
    simulate_transmissions
        ⟨[0, 1], [(0, 1)], fun _ => 0, fun _ => 0, fun _ => 0⟩
        0 [] (1 : ℚ) (fun _ _ => none) [] =
      .ok { graph := initialize_graph ⟨[0, 1], [(0, 1)], fun _ => 0, fun _ => 0, fun _ => 0⟩
            packets_sent := 0
            intermediate_routers := 0
            nappend_overhead := 0
            nsample_overhead := 0
            esample_overhead := 0 } :=
  empty_attackers_amended
    ⟨[0, 1], [(0, 1)], fun _ => 0, fun _ => 0, fun _ => 0⟩
    0 1 (fun _ _ => none) ⟨0, fun _ => 0⟩ []

theorem runPackets_noPath_abort (sp : Nat → Nat → Option (List Nat))
    (attackers : List Nat) (target : Nat) (p : ℚ) (ti : TrialInput)
    (post : List TrialInput) (h : ¬ attackers.length = 0)
    (hti : sp (chosenAttacker attackers ti h) target = none) :
    ∀ (pre : List TrialInput),
      (∀ tj ∈ pre, ∃ path, sp (chosenAttacker attackers tj h) target = some path) →
      ∀ (s : RunState),
        runPackets sp attackers target p (pre ++ ti :: post) s = .error .noPath
  | [], _, s => by
      show runPackets sp attackers target p (ti :: post) s = .error .noPath
      unfold runPackets
      rw [runPacket_noPath sp attackers target p ti s h hti]
  | tj :: pre, hpre, s => by
      show runPackets sp attackers target p (tj :: (pre ++ ti :: post)) s =
        .error .noPath
      obtain ⟨path, hpath⟩ := hpre tj (List.mem_cons_self tj pre)
      unfold runPackets
      rw [runPacket_of_path sp attackers target p tj s h path hpath]
      exact runPackets_noPath_abort sp attackers target p ti post h hti pre
        (fun tk hk => hpre tk (List.mem_cons_of_mem tj hk)) _

/-- C6: if a chosen attacker cannot reach the victim (the shortest-path call
fails), the whole run aborts with the reachability error: no
`SimulationResult` — not even partial statistics — is returned, and the
failing packet is neither skipped nor defaulted, whatever trials remain. -/
theorem unreachable_attacker_aborts (graph : PGraph) (target : Nat)
    (attackers : List Nat) (p : ℚ) (sp : Nat → Nat → Option (List Nat))
    (pre post : List TrialInput) (ti : TrialInput)
    (h : ¬ attackers.length = 0)
    (hpre : ∀ tj ∈ pre, ∃ path, sp (chosenAttacker attackers tj h) target = some path)
    (hti : sp (chosenAttacker attackers ti h) target = none) :
    simulate_transmissions graph target attackers p sp (pre ++ ti :: post) =
      .error .noPath := by
  unfold simulate_transmissions
  dsimp only []
  rw [runPackets_noPath_abort sp attackers target (clampP p) ti post h hti pre hpre]

theorem unreachable_attacker_aborts_witness :
    simulate_transmissions
        ⟨[0, 1], [(0, 1)], fun _ => 0, fun _ => 0, fun _ => 0⟩
        1 [0] (1 : ℚ) (fun _ _ => none) [⟨0, fun _ => 0⟩, ⟨0, fun _ => 0⟩] =
      .error .noPath := by
  have h := unreachable_attacker_aborts
    ⟨[0, 1], [(0, 1)], fun _ => 0, fun _ => 0, fun _ => 0⟩
    1 [0] 1 (fun _ _ => none) [] [⟨0, fun _ => 0⟩] ⟨0, fun _ => 0⟩
    (by decide) (by intro tj htj; cases htj) rfl
  exact h

theorem clampP_idem (p : ℚ) : clampP (max 0 (min p 1)) = clampP p := by
  unfold clampP
  have h1 : (0 : ℚ) ≤ max 0 (min p 1) := le_max_left _ _
  have h2 : max 0 (min p 1) ≤ 1 := max_le (by norm_num) (min_le_right _ _)
  rw [min_eq_left h2, max_eq_right h1]

/-- C7: `simulate_transmissions` raises no error for any probability `p`
(even below 0 or above 1) and behaves exactly as if called with `p` clamped
into `[0, 1]`: for the same random draws, the result with `p` equals the
result with `max 0 (min p 1)`. -/
theorem p_clamped_silently (graph : PGraph) (target : Nat)
    (attackers : List Nat) (p : ℚ) (sp : Nat → Nat → Option (List Nat))
    (trials : List TrialInput) :
    simulate_transmissions graph target attackers p sp trials =
      simulate_transmissions graph target attackers (max 0 (min p 1)) sp trials := by
  unfold simulate_transmissions
  rw [clampP_idem]

/-- C8: the engine operates on a fresh private copy of the caller's graph:
`initialize_graph` keeps the nodes and edges and zeroes every `times_marked`
and `times_used` counter; the simulation's outcome is completely independent
of the counter attributes of the caller's graph (so the caller's counters are
never read or written — in this pure embedding the input value is unchanged
by construction), and the returned graph has the same nodes and edges. -/
theorem input_graph_not_mutated (g : PGraph) (target : Nat)
    (attackers : List Nat) (p : ℚ) (sp : Nat → Nat → Option (List Nat))
    (trials : List TrialInput) :
    (initialize_graph g).nodes = g.nodes ∧
    (initialize_graph g).edges = g.edges ∧
    (∀ n, (initialize_graph g).timesMarked n = 0 ∧
          (initialize_graph g).timesUsedN n = 0) ∧
    (∀ e, (initialize_graph g).timesUsedE e = 0) ∧
    (∀ f1 f2 f3, simulate_transmissions
        { nodes := g.nodes, edges := g.edges,
          timesMarked := f1, timesUsedN := f2, timesUsedE := f3 }
        target attackers p sp trials =
      simulate_transmissions g target attackers p sp trials) ∧
    (∀ r, simulate_transmissions g target attackers p sp trials = .ok r →
      r.graph.nodes = g.nodes ∧ r.graph.edges = g.edges) := by
  refine ⟨rfl, rfl, fun n => ⟨rfl, rfl⟩, fun e => rfl, fun f1 f2 f3 => rfl, ?_⟩
  intro r hok
  unfold simulate_transmissions at hok
  dsimp only [] at hok
  split at hok
  · cases hok
  · rename_i s hs
    have hr := (Except.ok.inj hok).symm
    subst hr
    obtain ⟨D, _, _, h3, h4⟩ :=
      runPackets_ok_shape sp attackers target (clampP p) trials _ s hs
    exact ⟨h3, h4⟩

theorem input_graph_not_mutated_witness :
    ((simulate_transmissions
        ⟨[0, 1, 2, 3], [(0, 1), (1, 2), (2, 3)], fun _ => 0, fun _ => 0, fun _ => 0⟩
        3 [0] 1 (fun a t => if a = 0 ∧ t = 3 then some [0, 1, 2, 3] else none)
        [⟨0, fun _ => (1 : ℚ)/2⟩]).map
      (fun r => (r.graph.nodes, r.graph.edges))) =
      Except.ok ([0, 1, 2, 3], [(0, 1), (1, 2), (2, 3)]) := by
  obtain ⟨r, hr⟩ :
      ∃ r, simulate_transmissions
        ⟨[0, 1, 2, 3], [(0, 1), (1, 2), (2, 3)], fun _ => 0, fun _ => 0, fun _ => 0⟩
        3 [0] 1 (fun a t => if a = 0 ∧ t = 3 then some [0, 1, 2, 3] else none)
        [⟨0, fun _ => (1 : ℚ)/2⟩] = .ok r := ⟨_, rfl⟩
  have h := (input_graph_not_mutated
    ⟨[0, 1, 2, 3], [(0, 1), (1, 2), (2, 3)], fun _ => 0, fun _ => 0, fun _ => 0⟩
    3 [0] 1 (fun a t => if a = 0 ∧ t = 3 then some [0, 1, 2, 3] else none)
    [⟨0, fun _ => (1 : ℚ)/2⟩]).2.2.2.2.2 r hr
  rw [hr]
  simp only [Except.map]
  rw [h.1, h.2]

theorem filter_orderedInsert_key (tm : Nat → Nat) (k : Nat) (a : Nat)
    (l : List Nat) :
    (List.orderedInsert (fun x y => tm x ≤ tm y) a l).filter
        (fun n => tm n == k) =
      if tm a = k then a :: l.filter (fun n => tm n == k)
      else l.filter (fun n => tm n == k) := by
  rw [List.orderedInsert_eq_take_drop]
  rw [List.filter_append]
  have hsplit : l.filter (fun n => tm n == k) =
      (List.takeWhile (fun b => decide ¬ tm a ≤ tm b) l).filter
          (fun n => tm n == k) ++
        (List.dropWhile (fun b => decide ¬ tm a ≤ tm b) l).filter
          (fun n => tm n == k) := by
    rw [← List.filter_append, List.takeWhile_append_dropWhile]
  by_cases hak : tm a = k
  · rw [if_pos hak]
    have htake : (List.takeWhile (fun b => decide ¬ tm a ≤ tm b) l).filter
        (fun n => tm n == k) = [] := by
      rw [List.filter_eq_nil_iff]
      intro b hb
      have hlt := List.mem_takeWhile_imp hb
      simp only [decide_eq_true_eq] at hlt
      simp only [beq_iff_eq]
      omega
    rw [htake, List.nil_append, List.filter_cons,
      if_pos (by simp [hak]), hsplit, htake, List.nil_append]
  · rw [if_neg hak, List.filter_cons, if_neg (by simp [hak]), hsplit]

theorem filter_insertionSort_key (tm : Nat → Nat) (k : Nat) :
    ∀ (l : List Nat),
      (List.insertionSort (fun x y => tm x ≤ tm y) l).filter
          (fun n => tm n == k) = l.filter (fun n => tm n == k)
  | [] => rfl
  | a :: l => by
      show (List.orderedInsert (fun x y => tm x ≤ tm y) a
          (List.insertionSort (fun x y => tm x ≤ tm y) l)).filter
            (fun n => tm n == k) = _
      rw [filter_orderedInsert_key, filter_insertionSort_key tm k l,
        List.filter_cons]
      by_cases hak : tm a = k
      · rw [if_pos hak, if_pos (by simp [hak])]
      · rw [if_neg hak, if_neg (by simp [hak])]

/-- C9: node-sampling reconstruction selects exactly the nodes with
`times_marked != 0`, sorts them ascending by `times_marked` with ties keeping
the original node-enumeration order (stable sort), and chains them with the
victim appended as final element; with no marked node the chain is only the
victim. -/
theorem node_sampling_reconstruction (nodes : List Nat) (tm : Nat → Nat)
    (victim : Nat) :
    (rebuild_node_sampling_order nodes tm victim).getLast? = some victim ∧
    ((rebuild_node_sampling_order nodes tm victim).dropLast).Perm
      (nodes.filter (fun n => tm n != 0)) ∧
    ((rebuild_node_sampling_order nodes tm victim).dropLast).Pairwise
      (fun a b => tm a ≤ tm b) ∧
    (∀ k, ((rebuild_node_sampling_order nodes tm victim).dropLast).filter
        (fun n => tm n == k) =
      (nodes.filter (fun n => tm n != 0)).filter (fun n => tm n == k)) ∧
    ((∀ n ∈ nodes, tm n = 0) → rebuild_node_sampling_order nodes tm victim =
      [victim]) := by
  unfold rebuild_node_sampling_order
  rw [List.dropLast_concat, List.getLast?_concat]
  refine ⟨rfl, List.perm_insertionSort _ _, ?_, ?_, ?_⟩
  · exact @List.sorted_insertionSort Nat (fun x y => tm x ≤ tm y)
      (fun x y => Nat.decLe (tm x) (tm y))
      ⟨fun x y => Nat.le_total (tm x) (tm y)⟩
      ⟨fun x y z hxy hyz => Nat.le_trans hxy hyz⟩
      (nodes.filter (fun n => tm n != 0))
  · exact fun k => filter_insertionSort_key tm k _
  · intro hzero
    have hnil : nodes.filter (fun n => tm n != 0) = [] := by
      rw [List.filter_eq_nil_iff]
      intro b hb
      simp [hzero b hb]
    rw [hnil]
    rfl

theorem node_sampling_reconstruction_witness :
    rebuild_node_sampling_order [0, 1, 2] (fun _ => 0) 7 = [7] :=
  (node_sampling_reconstruction [0, 1, 2] (fun _ => 0) 7).2.2.2.2
    (fun n _ => rfl)

theorem sum_map_bump_key {α β : Type} [DecidableEq α] (κ : β → α)
    (f : α → Nat) (m : α) :
    ∀ (l : List β), (l.map κ).Nodup → m ∈ l.map κ →
      (l.map (fun e => bump f m (κ e))).sum =
        (l.map (fun e => f (κ e))).sum + 1
  | [], _, hm => absurd hm (List.not_mem_nil m)
  | b :: l, hnd, hm => by
      simp only [List.map_cons, List.sum_cons] at *
      have hnd2 := List.nodup_cons.mp hnd
      rcases List.mem_cons.mp hm with he | hm2
      · subst he
        rw [bump_apply, if_pos rfl]
        have htail : l.map (fun e => bump f (κ b) (κ e)) =
            l.map (fun e => f (κ e)) := by
          apply List.map_congr_left
          intro x hx
          have hne : ¬ κ x = κ b := fun hxm => hnd2.1
            (by rw [← hxm]; exact List.mem_map_of_mem κ hx)
          rw [bump_apply, if_neg hne, Nat.add_zero]
        rw [htail]
        omega
      · have hbm : ¬ κ b = m := fun he => hnd2.1 (he ▸ hm2)
        rw [bump_apply, if_neg hbm,
          sum_map_bump_key κ f m l hnd2.2 hm2]
        omega

theorem walkLoop_nodeSum (p : ℚ) (draws : Nat → ℚ) (N : List Nat)
    (hnd : N.Nodup) :
    ∀ (pairs : List (Nat × Nat)) (idx : Nat) (s : WalkState),
      (∀ q ∈ pairs, q.1 ∈ N) →
      (N.map (walkLoop p draws pairs idx s).g.timesUsedN).sum =
        (N.map s.g.timesUsedN).sum + pairs.length
  | [], _, _, _ => by simp [walkLoop]
  | (a, b) :: rest, idx, s, hmem => by
      rw [walkLoop]
      rw [walkLoop_nodeSum p draws N hnd rest (idx + 1) _
        (fun q hq => hmem q (List.mem_cons_of_mem _ hq))]
      simp only []
      have hsum : (N.map (bump s.g.timesUsedN a)).sum =
          (N.map s.g.timesUsedN).sum + 1 :=
        sum_map_bump_key (fun n : Nat => n) s.g.timesUsedN a N
          (by simpa using hnd)
          (by simpa using hmem (a, b) (List.mem_cons_self _ _))
      rw [hsum]
      simp only [List.length_cons]
      omega

theorem walkLoop_edgeSum (p : ℚ) (draws : Nat → ℚ) (E : List (Nat × Nat))
    (hnd : (E.map (fun e => ekey e.1 e.2)).Nodup) :
    ∀ (pairs : List (Nat × Nat)) (idx : Nat) (s : WalkState),
      (∀ q ∈ pairs, ekey q.1 q.2 ∈ E.map (fun e => ekey e.1 e.2)) →
      (E.map (fun e => (walkLoop p draws pairs idx s).g.timesUsedE
          (ekey e.1 e.2))).sum =
        (E.map (fun e => s.g.timesUsedE (ekey e.1 e.2))).sum + pairs.length
  | [], _, _, _ => by simp [walkLoop]
  | (a, b) :: rest, idx, s, hmem => by
      rw [walkLoop]
      rw [walkLoop_edgeSum p draws E hnd rest (idx + 1) _
        (fun q hq => hmem q (List.mem_cons_of_mem _ hq))]
      simp only []
      rw [sum_map_bump_key (fun e : Nat × Nat => ekey e.1 e.2)
        s.g.timesUsedE (ekey a b) E hnd (hmem (a, b) (List.mem_cons_self _ _))]
      simp only [List.length_cons]
      omega

theorem runPacket_sums (sp : Nat → Nat → Option (List Nat))
    (attackers : List Nat) (target : Nat) (p : ℚ) (ti : TrialInput)
    (s s2 : RunState) (N : List Nat) (E : List (Nat × Nat))
    (hsN : s.g.nodes = N) (hsE : s.g.edges = E)
    (hnd : N.Nodup) (hend : (E.map (fun e => ekey e.1 e.2)).Nodup)
    (hatk : ∀ a ∈ attackers, a ∈ N)
    (hspec : ∀ a path, a ∈ attackers → sp a target = some path →
       ∀ q ∈ path.zip path.tail, q.1 ∈ N ∧
          ekey q.1 q.2 ∈ E.map (fun e => ekey e.1 e.2))
    (hok : runPacket sp attackers target p ti s = .ok s2) :
    ∃ d, s2.inter = s.inter + d ∧
      nodeUsedSum s2.g = nodeUsedSum s.g + d + 1 ∧
      edgeUsedSum s2.g = edgeUsedSum s.g + d ∧
      s2.g.nodes = N ∧ s2.g.edges = E := by
  by_cases hA : attackers.length = 0
  · rw [runPacket, dif_pos hA] at hok
    cases hok
  · rcases hsp : sp (chosenAttacker attackers ti hA) target with _ | path
    · rw [runPacket_noPath sp attackers target p ti s hA hsp] at hok
      cases hok
    · rw [runPacket_of_path sp attackers target p ti s hA path hsp] at hok
      simp only [] at hok
      have hs2 := (Except.ok.inj hok).symm
      subst hs2
      refine ⟨(path.zip path.tail).length, ?_⟩
      have hmem : chosenAttacker attackers ti hA ∈ attackers :=
        List.get_mem _ _ _
      have hq := hspec (chosenAttacker attackers ti hA) path hmem hsp
      set W := walkLoop p ti.draws (path.zip path.tail) 0
        { g := { s.g with
                  timesUsedN := bump s.g.timesUsedN (chosenAttacker attackers ti hA) }
          nappend := s.nappend, inter := s.inter, saved := none } with hW
      have hWnodes : W.g.nodes = N := by
        rw [hW, walkLoop_nodes]
        exact hsN
      have hWedges : W.g.edges = E := by
        rw [hW, walkLoop_edges]
        exact hsE
      have hnode : nodeUsedSum W.g =
          nodeUsedSum s.g + (path.zip path.tail).length + 1 := by
        unfold nodeUsedSum
        rw [hWnodes, hsN, hW]
        rw [walkLoop_nodeSum p ti.draws N hnd (path.zip path.tail) 0 _
          (fun q hqq => (hq q hqq).1)]
        simp only []
        rw [sum_map_bump_key (fun n : Nat => n) s.g.timesUsedN
          (chosenAttacker attackers ti hA) N
          (by simpa using hnd) (by simpa using hatk _ hmem)]
        have heta : (N.map (fun e => s.g.timesUsedN e)).sum =
            (N.map s.g.timesUsedN).sum := rfl
        rw [heta]
        omega
      have hedge : edgeUsedSum W.g =
          edgeUsedSum s.g + (path.zip path.tail).length := by
        unfold edgeUsedSum
        rw [hWedges, hsE, hW]
        rw [walkLoop_edgeSum p ti.draws E hend (path.zip path.tail) 0 _
          (fun q hqq => (hq q hqq).2)]
      have hWinter : W.inter = s.inter + (path.zip path.tail).length := by
        rw [hW, walkLoop_inter]
      rcases hsv : W.saved with _ | rr <;> simp only [hsv] <;>
        exact ⟨hWinter, hnode, hedge, hWnodes, hWedges⟩

theorem runPackets_sums (sp : Nat → Nat → Option (List Nat))
    (attackers : List Nat) (target : Nat) (p : ℚ)
    (N : List Nat) (E : List (Nat × Nat))
    (hnd : N.Nodup) (hend : (E.map (fun e => ekey e.1 e.2)).Nodup)
    (hatk : ∀ a ∈ attackers, a ∈ N)
    (hspec : ∀ a path, a ∈ attackers → sp a target = some path →
       ∀ q ∈ path.zip path.tail, q.1 ∈ N ∧
          ekey q.1 q.2 ∈ E.map (fun e => ekey e.1 e.2)) :
    ∀ (trials : List TrialInput) (s s2 : RunState),
      s.g.nodes = N → s.g.edges = E →
      runPackets sp attackers target p trials s = .ok s2 →
      ∃ D, s2.inter = s.inter + D ∧
        nodeUsedSum s2.g = nodeUsedSum s.g + D + trials.length ∧
        edgeUsedSum s2.g = edgeUsedSum s.g + D ∧
        s2.g.nodes = N ∧ s2.g.edges = E
  | [], s, s2, hsN, hsE, hok => by
      have hs2 := (Except.ok.inj hok).symm
      subst hs2
      exact ⟨0, by omega, by simp, by omega, hsN, hsE⟩
  | ti :: rest, s, s2, hsN, hsE, hok => by
      unfold runPackets at hok
      split at hok
      · cases hok
      · rename_i s1 hs1
        obtain ⟨d, hd1, hd2, hd3, hd4, hd5⟩ :=
          runPacket_sums sp attackers target p ti s s1 N E hsN hsE
            hnd hend hatk hspec hs1
        obtain ⟨D, hD1, hD2, hD3, hD4, hD5⟩ :=
          runPackets_sums sp attackers target p N E hnd hend hatk hspec
            rest s1 s2 hd4 hd5 hok
        refine ⟨d + D, by omega, ?_, by omega, hD4, hD5⟩
        rw [hD2, hd2]
        simp only [List.length_cons]
        omega

/-- C10: after every successful run with the victim not among the attackers,
the counters satisfy the conservation equations: the sum of node `times_used`
over all nodes equals `intermediate_routers + packets_sent`, and the sum of
edge `times_used` over all edges equals `intermediate_routers`. -/
theorem counter_conservation (graph : PGraph) (target : Nat)
    (attackers : List Nat) (p : ℚ) (sp : Nat → Nat → Option (List Nat))
    (trials : List TrialInput) (r : SimulationResult)
    (hvic : target ∉ attackers)
    (hnd : graph.nodes.Nodup)
    (hend : (graph.edges.map (fun e => ekey e.1 e.2)).Nodup)
    (hatk : ∀ a ∈ attackers, a ∈ graph.nodes)
    (hspec : ∀ a path, a ∈ attackers → sp a target = some path →
       ∀ q ∈ path.zip path.tail, q.1 ∈ graph.nodes ∧
          ekey q.1 q.2 ∈ graph.edges.map (fun e => ekey e.1 e.2))
    (hok : simulate_transmissions graph target attackers p sp trials = .ok r) :
    nodeUsedSum r.graph = r.intermediate_routers + r.packets_sent ∧
    edgeUsedSum r.graph = r.intermediate_routers := by
  unfold simulate_transmissions at hok
  dsimp only [] at hok
  split at hok
  · cases hok
  · rename_i s hs
    have hr := (Except.ok.inj hok).symm
    subst hr
    obtain ⟨D, hD1, hD2, hD3, _, _⟩ :=
      runPackets_sums sp attackers target (clampP p) graph.nodes graph.edges
        hnd hend hatk hspec trials _ s rfl rfl hs
    have hzero1 : nodeUsedSum (initialize_graph graph) = 0 := by
      unfold nodeUsedSum initialize_graph
      simp
    have hzero2 : edgeUsedSum (initialize_graph graph) = 0 := by
      unfold edgeUsedSum initialize_graph
      simp
    have hI : s.inter = 0 + D := hD1
    have hn : nodeUsedSum s.g =
        nodeUsedSum (initialize_graph graph) + D + trials.length := hD2
    have he : edgeUsedSum s.g = edgeUsedSum (initialize_graph graph) + D := hD3
    rw [hzero1] at hn
    rw [hzero2] at he
    exact ⟨by show nodeUsedSum s.g = s.inter + trials.length; omega,
      by show edgeUsedSum s.g = s.inter; omega⟩

theorem counter_conservation_witness :
    ((simulate_transmissions
        ⟨[0, 1, 2, 3], [(0, 1), (1, 2), (2, 3)], fun _ => 0, fun _ => 0, fun _ => 0⟩
        3 [0] 1 (fun a t => if a = 0 ∧ t = 3 then some [0, 1, 2, 3] else none)
        [⟨0, fun _ => (1 : ℚ)/2⟩]).map
      (fun r => (nodeUsedSum r.graph, edgeUsedSum r.graph,
                 r.intermediate_routers, r.packets_sent))) =
      Except.ok (4, 3, 3, 1) := by
  obtain ⟨r, hr⟩ :
      ∃ r, simulate_transmissions
        ⟨[0, 1, 2, 3], [(0, 1), (1, 2), (2, 3)], fun _ => 0, fun _ => 0, fun _ => 0⟩
        3 [0] 1 (fun a t => if a = 0 ∧ t = 3 then some [0, 1, 2, 3] else none)
        [⟨0, fun _ => (1 : ℚ)/2⟩] = .ok r := ⟨_, rfl⟩
  have h := counter_conservation _ 3 [0] 1 _ _ r (by decide) (by decide)
    (by decide) (by decide)
    (by
      intro a path ha hsp
      rw [List.mem_singleton] at ha
      subst ha
      rw [if_pos ⟨rfl, rfl⟩] at hsp
      have hp := Option.some.inj hsp
      subst hp
      decide)
    hr
  have hCr := Except.ok.inj hr
  have hir : r.intermediate_routers = 3 := by
    rw [← hCr]
    rfl
  have hps : r.packets_sent = 1 := by
    rw [← hCr]
    rfl
  rw [hr]
  simp only [Except.map]
  rw [h.1, h.2, hir, hps]
